import Mathlib

/-!
Verification of the SLIP link layer (src/slip.py).

Bytes are modelled as `Nat` (values 0..255 in practice; the framing logic
never computes arithmetic on bytes, only equality tests, so no modular
reduction is needed).  `bytes` values become `List Nat`.

`Enlace.enviar` and `Enlace.__raw_recv` are pure up to the serial line /
callback side effects, so we embed them as functions returning the bytes
handed to the serial line (for `enviar`) and the list of datagrams handed
to the callback together with the final reassembly buffer (for
`__raw_recv`).  The `while END in buffer` loop of `__raw_recv` consumes at
least the first delimiter byte of the buffer on every iteration, so the
buffer length bounds the number of iterations; we use it as structural
fuel to keep the definition executable by kernel reduction.
-/

namespace SLIP

/-- Frame delimiter byte `END = b'\xC0'` from src/slip.py. -/
def END : Nat := 0xC0

/-- Escape byte `ESC = b'\xDB'` from src/slip.py. -/
def ESC : Nat := 0xDB

/-- `ESC_END = b'\xDB\xDC'`, the escaped representation of 0xC0. -/
def ESC_END : List Nat := [0xDB, 0xDC]

/-- `ESC_ESC = b'\xDB\xDD'`, the escaped representation of 0xDB. -/
def ESC_ESC : List Nat := [0xDB, 0xDD]

/-- Python `bytes.replace(old, new)` specialised to a one-byte pattern
`old`: every occurrence of the byte is replaced by `new`, left to right. -/
def replaceByte (old : Nat) (new : List Nat) : List Nat → List Nat
  | [] => []
  | b :: rest => (if b = old then new else [b]) ++ replaceByte old new rest

/-- Python `bytes.replace(old, new)` specialised to a two-byte pattern
`[a, b]`: left-to-right, non-overlapping replacement by `r`. -/
def replacePair (a b : Nat) (r : List Nat) : List Nat → List Nat
  | [] => []
  | [x] => [x]
  | x :: y :: rest =>
    if x = a ∧ y = b then r ++ replacePair a b r rest
    else x :: replacePair a b r (y :: rest)

/-- The escaped payload computed by `Enlace.enviar`:
`datagrama.replace(ESC, ESC_ESC).replace(END, ESC_END)`. -/
def escape (d : List Nat) : List Nat :=
  replaceByte END ESC_END (replaceByte ESC ESC_ESC d)

/-- `Enlace.enviar`: the frame `END + escaped datagram + END` passed to
`linha_serial.enviar`. -/
def enviar (d : List Nat) : List Nat :=
  END :: (escape d ++ [END])

/-- The unescaping done by `Enlace.__raw_recv` on one candidate frame:
`quadro.replace(ESC_END, END).replace(ESC_ESC, ESC)`. -/
def unescape (q : List Nat) : List Nat :=
  replacePair ESC 0xDD [ESC] (replacePair ESC 0xDC [END] q)

/-- The `while END in self.buffer` loop of `Enlace.__raw_recv`, with fuel.
Each iteration splits the buffer at the first delimiter
(`self.buffer.partition(END)`), skips empty candidate frames, and
otherwise unescapes and dispatches the frame.  Returns the list of
datagrams passed to the callback and the final buffer.  Every iteration
removes at least one byte (the delimiter) from the buffer, so any fuel
of at least the buffer length computes the loop exactly. -/
def drainFuel : Nat → List Nat → List (List Nat) × List Nat
  | 0, b => ([], b)
  | fuel + 1, b =>
    if END ∈ b then
      let q := b.takeWhile (fun x => x != END)
      let rest := (b.dropWhile (fun x => x != END)).tail
      let r := drainFuel fuel rest
      (if q = [] then r.1 else unescape q :: r.1, r.2)
    else ([], b)

/-- The delimiter-splitting loop of `Enlace.__raw_recv`, run to
completion on a buffer. -/
def drain (b : List Nat) : List (List Nat) × List Nat :=
  drainFuel b.length b

/-- `Enlace.__raw_recv`: append the received chunk to the reassembly
buffer, then drain all complete frames.  Returns the dispatched
datagrams and the new buffer. -/
def raw_recv (buffer dados : List Nat) : List (List Nat) × List Nat :=
  drain (buffer ++ dados)

/-- Several successive calls of `Enlace.__raw_recv`, threading the
reassembly buffer; collects all dispatched datagrams in order. -/
def raw_recv_many (buffer : List Nat) : List (List Nat) → List (List Nat) × List Nat
  | [] => ([], buffer)
  | c :: cs =>
    let r := raw_recv buffer c
    let r' := raw_recv_many r.2 cs
    (r.1 ++ r'.1, r'.2)

/-- The `__raw_recv` loop with the callback's failure behaviour made
explicit: `fails q = true` models the callback raising an exception on
datagram `q`.  The `try/except` in src/slip.py catches the exception at
the dispatch boundary and reports it (`traceback.print_exc()`), then the
loop continues.  Returns (dispatched datagrams, reported failures, final
buffer); that the function is total models that no exception escapes
`__raw_recv`. -/
def drainExFuel (fails : List Nat → Bool) : Nat → List Nat → List (List Nat) × List (List Nat) × List Nat
  | 0, b => ([], [], b)
  | fuel + 1, b =>
    if END ∈ b then
      let q := b.takeWhile (fun x => x != END)
      let rest := (b.dropWhile (fun x => x != END)).tail
      let r := drainExFuel fails fuel rest
      if q = [] then r
      else (unescape q :: r.1,
            (if fails (unescape q) then unescape q :: r.2.1 else r.2.1),
            r.2.2)
    else ([], [], b)

/-- `drainExFuel` run to completion. -/
def drainEx (fails : List Nat → Bool) (b : List Nat) : List (List Nat) × List (List Nat) × List Nat :=
  drainExFuel fails b.length b

/-- `Enlace.__raw_recv` with explicit callback-failure behaviour. -/
def raw_recvEx (fails : List Nat → Bool) (buffer dados : List Nat) : List (List Nat) × List (List Nat) × List Nat :=
  drainEx fails (buffer ++ dados)

/-- The failure surfaced by `CamadaEnlace.enviar` when `next_hop` is not
a key of `self.enlaces` (a Python `KeyError` from the dict lookup; the
spec calls it AddressUnknownError). -/
inductive SendError
  | addressUnknown
deriving DecidableEq, Repr

/-- `CamadaEnlace.enviar`: look `next_hop` up in the registry
`self.enlaces` (modelled as an association list with unique keys,
addresses and link identifiers being `Nat`) and send the encoded frame
on that link; a missing key surfaces the lookup error.  The result lists
every (link, raw bytes) transmission the call performs. -/
def camadaEnviar (enlaces : List (Nat × Nat)) (datagrama : List Nat) (next_hop : Nat) :
    Except SendError (List (Nat × List Nat)) :=
  match enlaces.lookup next_hop with
  | some enlace => Except.ok [(enlace, enviar datagrama)]
  | none => Except.error SendError.addressUnknown

/-- `CamadaEnlace._callback`: dispatch a decoded datagram to the
registered upper-layer callback slot (`self.callback`, initially
`None`); with no callback registered the datagram is dropped.  Callbacks
are identified by `Nat` tags; the result lists the deliveries made. -/
def dispatchUp (slot : Option Nat) (datagrama : List Nat) : List (Nat × List Nat) :=
  match slot with
  | none => []
  | some c => [(c, datagrama)]

/-- `CamadaEnlace.registrar_recebedor`: replace the single callback slot. -/
def registrar_recebedor (_slot : Option Nat) (c : Nat) : Option Nat :=
  some c

/-- An event at the CamadaEnlace boundary: a datagram decoded by some
Link arrives at `_callback`, or the upper layer registers a receiver. -/
inductive Ev
  | arrive (d : List Nat)
  | register (c : Nat)

/-- Run a sequence of events against the callback slot, collecting every
delivery `_callback` makes.  There is no queue: this is exactly the
state machine of `CamadaEnlace`'s `callback` field. -/
def runEvents (slot : Option Nat) : List Ev → List (Nat × List Nat)
  | [] => []
  | Ev.arrive d :: es => dispatchUp slot d ++ runEvents slot es
  | Ev.register c :: es => runEvents (registrar_recebedor slot c) es

/-! ### Lemmas about the escaping performed by `Enlace.enviar` -/

theorem replaceByte_cons (old : Nat) (new : List Nat) (b : Nat) (rest : List Nat) :
    replaceByte old new (b :: rest) = (if b = old then new else [b]) ++ replaceByte old new rest :=
  rfl

theorem replaceByte_append (old : Nat) (new : List Nat) :
    ∀ l₁ l₂ : List Nat, replaceByte old new (l₁ ++ l₂) = replaceByte old new l₁ ++ replaceByte old new l₂ := by
  intro l₁ l₂
  induction l₁ with
  | nil => simp [replaceByte]
  | cons b rest ih => simp [replaceByte_cons, ih]

theorem escape_cons (b : Nat) (d : List Nat) :
    escape (b :: d) =
      (if b = END then [ESC, 0xDC] else if b = ESC then [ESC, 0xDD] else [b]) ++ escape d := by
  unfold escape
  rw [replaceByte_cons, replaceByte_append]
  by_cases hesc : b = ESC
  · subst hesc
    rw [if_pos rfl, if_neg (by decide : ¬ ESC = END), if_pos rfl]
    simp [ESC_ESC, replaceByte, ESC, END]
  · rw [if_neg hesc]
    by_cases hend : b = END
    · subst hend
      rw [if_pos rfl]
      simp [ESC_END, replaceByte, ESC, END]
    · rw [if_neg hend]
      simp [replaceByte, hend, hesc]

theorem escape_nil : escape [] = [] := rfl

theorem end_not_mem_escape : ∀ d : List Nat, END ∉ escape d := by
  intro d
  induction d with
  | nil => simp [escape_nil]
  | cons b rest ih =>
    rw [escape_cons]
    intro hmem
    rcases List.mem_append.mp hmem with h | h
    · by_cases hend : b = END
      · rw [if_pos hend] at h
        revert h
        decide
      · rw [if_neg hend] at h
        by_cases hesc : b = ESC
        · rw [if_pos hesc] at h
          revert h
          decide
        · rw [if_neg hesc] at h
          simp at h
          exact hend h.symm
    · exact ih h

theorem escape_ne_nil (d : List Nat) (h : d ≠ []) : escape d ≠ [] := by
  cases d with
  | nil => exact absurd rfl h
  | cons b rest =>
    rw [escape_cons]
    intro hnil
    rcases List.append_eq_nil.mp hnil with ⟨h1, _⟩
    by_cases hend : b = END
    · rw [if_pos hend] at h1
      exact absurd h1 (by decide)
    · rw [if_neg hend] at h1
      by_cases hesc : b = ESC
      · rw [if_pos hesc] at h1
        exact absurd h1 (by decide)
      · rw [if_neg hesc] at h1
        exact absurd h1 (by simp)

/-! ### Lemmas about the unescaping performed by `Enlace.__raw_recv` -/

theorem replacePair_cons_ne (a b : Nat) (r : List Nat) (x : Nat) (l : List Nat) (h : x ≠ a) :
    replacePair a b r (x :: l) = x :: replacePair a b r l := by
  cases l with
  | nil => simp [replacePair]
  | cons y rest => simp [replacePair, h]

theorem replacePair_cons_two (a b : Nat) (r : List Nat) (x y : Nat) (l : List Nat)
    (h : ¬ (x = a ∧ y = b)) :
    replacePair a b r (x :: y :: l) = x :: replacePair a b r (y :: l) := by
  simp only [replacePair, if_neg h]

theorem replacePair_match (a b : Nat) (r : List Nat) (l : List Nat) :
    replacePair a b r (a :: b :: l) = r ++ replacePair a b r l := by
  simp [replacePair]

/-- Intermediate state of the unescaping: the escaped payload after the
first replacement (`ESC_END → END`) but before the second. -/
def halfEscape : List Nat → List Nat
  | [] => []
  | b :: d => (if b = END then [END] else if b = ESC then [ESC, 0xDD] else [b]) ++ halfEscape d

theorem replacePair_escape (d : List Nat) :
    replacePair ESC 0xDC [END] (escape d) = halfEscape d := by
  induction d with
  | nil => simp [escape_nil, replacePair, halfEscape]
  | cons b rest ih =>
    rw [escape_cons]
    by_cases hend : b = END
    · subst hend
      rw [if_pos rfl]
      show replacePair ESC 0xDC [END] (ESC :: 0xDC :: escape rest) = _
      rw [replacePair_match, ih]
      simp [halfEscape]
    · rw [if_neg hend]
      by_cases hesc : b = ESC
      · subst hesc
        rw [if_pos rfl]
        show replacePair ESC 0xDC [END] (ESC :: 0xDD :: escape rest) = _
        rw [replacePair_cons_two _ _ _ _ _ _ (by decide),
            replacePair_cons_ne _ _ _ _ _ (by decide), ih]
        simp [halfEscape, if_neg (by decide : ¬ ESC = END)]
      · rw [if_neg hesc]
        show replacePair ESC 0xDC [END] (b :: escape rest) = _
        rw [replacePair_cons_ne _ _ _ _ _ hesc, ih]
        simp [halfEscape, if_neg hend, if_neg hesc]

theorem replacePair_halfEscape (d : List Nat) :
    replacePair ESC 0xDD [ESC] (halfEscape d) = d := by
  induction d with
  | nil => simp [halfEscape, replacePair]
  | cons b rest ih =>
    show replacePair ESC 0xDD [ESC]
        ((if b = END then [END] else if b = ESC then [ESC, 0xDD] else [b]) ++ halfEscape rest) = _
    by_cases hend : b = END
    · rw [if_pos hend]
      show replacePair ESC 0xDD [ESC] (END :: halfEscape rest) = _
      rw [replacePair_cons_ne _ _ _ _ _ (by decide), ih, hend]
    · rw [if_neg hend]
      by_cases hesc : b = ESC
      · rw [if_pos hesc]
        show replacePair ESC 0xDD [ESC] (ESC :: 0xDD :: halfEscape rest) = _
        rw [replacePair_match, ih, hesc]
        rfl
      · rw [if_neg hesc]
        show replacePair ESC 0xDD [ESC] (b :: halfEscape rest) = _
        rw [replacePair_cons_ne _ _ _ _ _ hesc, ih]

theorem unescape_escape (d : List Nat) : unescape (escape d) = d := by
  unfold unescape
  rw [replacePair_escape, replacePair_halfEscape]

/-! ### Lemmas about the reassembly loop of `Enlace.__raw_recv` -/

theorem drainFuel_zero (b : List Nat) : drainFuel 0 b = ([], b) := rfl

theorem drainFuel_succ (fuel : Nat) (b : List Nat) :
    drainFuel (fuel + 1) b =
      if END ∈ b then
        (if b.takeWhile (fun x => x != END) = [] then
            (drainFuel fuel ((b.dropWhile (fun x => x != END)).tail)).1
          else unescape (b.takeWhile (fun x => x != END)) ::
            (drainFuel fuel ((b.dropWhile (fun x => x != END)).tail)).1,
         (drainFuel fuel ((b.dropWhile (fun x => x != END)).tail)).2)
      else ([], b) := rfl

theorem dropWhile_end_head (b : List Nat) (h : END ∈ b) :
    b.dropWhile (fun x => x != END) = END :: (b.dropWhile (fun x => x != END)).tail := by
  induction b with
  | nil => simp at h
  | cons x t ih =>
    by_cases hx : x = END
    · subst hx
      rw [List.dropWhile_cons_of_neg (by simp)]
      rfl
    · have hmem : END ∈ t := by
        rcases List.mem_cons.mp h with h1 | h1
        · exact absurd h1.symm hx
        · exact h1
      rw [List.dropWhile_cons_of_pos (by simp [hx])]
      exact ih hmem

theorem rest_length_lt (b : List Nat) (h : END ∈ b) :
    ((b.dropWhile (fun x => x != END)).tail).length < b.length := by
  induction b with
  | nil => simp at h
  | cons x t ih =>
    by_cases hx : x = END
    · subst hx
      rw [List.dropWhile_cons_of_neg (by simp)]
      simp
    · have hmem : END ∈ t := by
        rcases List.mem_cons.mp h with h1 | h1
        · exact absurd h1.symm hx
        · exact h1
      rw [List.dropWhile_cons_of_pos (by simp [hx])]
      simp only [List.length_cons]
      exact Nat.lt_succ_of_lt (ih hmem)

theorem drainFuel_irrel : ∀ (fuel fuel' : Nat) (b : List Nat),
    b.length ≤ fuel → b.length ≤ fuel' → drainFuel fuel b = drainFuel fuel' b := by
  intro fuel
  induction fuel with
  | zero =>
    intro fuel' b h h'
    cases b with
    | nil =>
      cases fuel' with
      | zero => rfl
      | succ m => rw [drainFuel_zero, drainFuel_succ, if_neg (by simp)]
    | cons x t => simp only [List.length_cons] at h; omega
  | succ n ih =>
    intro fuel' b h h'
    cases fuel' with
    | zero =>
      cases b with
      | nil => rw [drainFuel_zero, drainFuel_succ, if_neg (by simp)]
      | cons x t => simp only [List.length_cons] at h'; omega
    | succ m =>
      by_cases hmem : END ∈ b
      · have hlt := rest_length_lt b hmem
        rw [drainFuel_succ, drainFuel_succ, if_pos hmem, if_pos hmem,
            ih m ((b.dropWhile (fun x => x != END)).tail) (by omega) (by omega)]
      · rw [drainFuel_succ, drainFuel_succ, if_neg hmem, if_neg hmem]

theorem drain_of_not_mem (b : List Nat) (h : END ∉ b) : drain b = ([], b) := by
  unfold drain
  cases b with
  | nil => rfl
  | cons x t => rw [List.length_cons, drainFuel_succ, if_neg h]

theorem takeWhile_frame (q t : List Nat) (hq : END ∉ q) :
    (q ++ END :: t).takeWhile (fun x => x != END) = q := by
  have hall : ∀ a ∈ q, (fun x => x != END) a = true := by
    intro a ha
    simp only [bne_iff_ne, ne_eq]
    intro he
    subst he
    exact hq ha
  rw [List.takeWhile_append_of_pos hall, List.takeWhile_cons_of_neg (by simp), List.append_nil]

theorem dropWhile_frame (q t : List Nat) (hq : END ∉ q) :
    (q ++ END :: t).dropWhile (fun x => x != END) = END :: t := by
  have hall : ∀ a ∈ q, (fun x => x != END) a = true := by
    intro a ha
    simp only [bne_iff_ne, ne_eq]
    intro he
    subst he
    exact hq ha
  rw [List.dropWhile_append_of_pos hall, List.dropWhile_cons_of_neg (by simp)]

theorem drain_step (q t : List Nat) (hq : END ∉ q) :
    drain (q ++ END :: t) =
      ((if q = [] then [] else [unescape q]) ++ (drain t).1, (drain t).2) := by
  unfold drain
  have hlen : (q ++ END :: t).length = (q.length + t.length) + 1 := by
    rw [List.length_append, List.length_cons]
    omega
  rw [hlen, drainFuel_succ, if_pos (by simp : END ∈ q ++ END :: t),
      takeWhile_frame q t hq, dropWhile_frame q t hq]
  simp only [List.tail_cons]
  rw [drainFuel_irrel (q.length + t.length) t.length t (by omega) (Nat.le_refl _)]
  by_cases hq0 : q = []
  · simp [hq0]
  · simp [hq0]

theorem drain_cons_end (t : List Nat) : drain (END :: t) = drain t := by
  have h := drain_step [] t (by simp)
  simpa using h

theorem takeWhile_end_not_mem (b : List Nat) : END ∉ b.takeWhile (fun x => x != END) := by
  intro h
  have := List.mem_takeWhile_imp h
  simp at this

theorem buffer_decomp (b : List Nat) (h : END ∈ b) :
    b = b.takeWhile (fun x => x != END) ++ END :: (b.dropWhile (fun x => x != END)).tail := by
  obtain ⟨t, ht⟩ : ∃ t, b.dropWhile (fun x => x != END) = END :: t :=
    ⟨_, dropWhile_end_head b h⟩
  rw [ht, List.tail_cons, ← ht, List.takeWhile_append_dropWhile]

theorem drain_append (b c : List Nat) :
    drain (b ++ c) =
      ((drain b).1 ++ (drain ((drain b).2 ++ c)).1, (drain ((drain b).2 ++ c)).2) := by
  by_cases h : END ∈ b
  · obtain ⟨q, t, hdec, hq, hlt⟩ :
        ∃ q t, b = q ++ END :: t ∧ END ∉ q ∧ t.length < b.length :=
      ⟨b.takeWhile (fun x => x != END), (b.dropWhile (fun x => x != END)).tail,
        buffer_decomp b h, takeWhile_end_not_mem b, rest_length_lt b h⟩
    subst hdec
    have ih := drain_append t c
    have e1 : (q ++ END :: t) ++ c = q ++ END :: (t ++ c) := by simp
    rw [e1, drain_step q (t ++ c) hq, drain_step q t hq, ih]
    simp [List.append_assoc]
  · rw [drain_of_not_mem b h]
    simp
termination_by b.length
decreasing_by simp_wf; omega

theorem takeWhile_until_end (u v : List Nat) :
    (u ++ END :: v).takeWhile (fun x => x != END) = u.takeWhile (fun x => x != END) := by
  induction u with
  | nil =>
    rw [List.nil_append, List.takeWhile_cons_of_neg (by simp), List.takeWhile_nil]
  | cons x u ih =>
    by_cases hx : x = END
    · subst hx
      rw [List.cons_append, List.takeWhile_cons_of_neg (by simp),
          List.takeWhile_cons_of_neg (by simp)]
    · rw [List.cons_append, List.takeWhile_cons_of_pos (by simp [hx]),
          List.takeWhile_cons_of_pos (by simp [hx]), ih]

theorem drain_snd_eq (b : List Nat) :
    (drain b).2 = (b.reverse.takeWhile (fun x => x != END)).reverse := by
  by_cases h : END ∈ b
  · obtain ⟨q, t, hdec, hq, hlt⟩ :
        ∃ q t, b = q ++ END :: t ∧ END ∉ q ∧ t.length < b.length :=
      ⟨b.takeWhile (fun x => x != END), (b.dropWhile (fun x => x != END)).tail,
        buffer_decomp b h, takeWhile_end_not_mem b, rest_length_lt b h⟩
    subst hdec
    have ih := drain_snd_eq t
    rw [drain_step q t hq]
    have e : (q ++ END :: t).reverse = t.reverse ++ END :: q.reverse := by
      rw [List.reverse_append, List.reverse_cons, List.append_assoc, List.singleton_append]
    rw [e, takeWhile_until_end]
    exact ih
  · rw [drain_of_not_mem b h]
    have : b.reverse.takeWhile (fun x => x != END) = b.reverse := by
      apply List.takeWhile_eq_self_iff.mpr
      intro x hx
      simp only [bne_iff_ne, ne_eq]
      intro he
      subst he
      exact h (List.mem_reverse.mp hx)
    rw [this, List.reverse_reverse]
termination_by b.length
decreasing_by simp_wf; omega

theorem drain_snd_not_mem (b : List Nat) : END ∉ (drain b).2 := by
  rw [drain_snd_eq]
  intro hmem
  have := List.mem_takeWhile_imp (List.mem_reverse.mp hmem)
  simp at this

/-! ### Frame-level lemmas -/

theorem drain_frame (d : List Nat) (h : d ≠ []) (r : List Nat) :
    drain (enviar d ++ r) = (d :: (drain r).1, (drain r).2) := by
  have e : enviar d ++ r = END :: (escape d ++ END :: r) := by
    simp [enviar]
  rw [e, drain_cons_end, drain_step (escape d) r (end_not_mem_escape d),
      if_neg (escape_ne_nil d h), unescape_escape]
  simp

theorem drain_frames (ds : List (List Nat)) (h : ∀ d ∈ ds, d ≠ []) (r : List Nat) :
    drain ((ds.map enviar).flatten ++ r) = (ds ++ (drain r).1, (drain r).2) := by
  induction ds with
  | nil => simp
  | cons d rest ih =>
    have e : ((d :: rest).map enviar).flatten ++ r = enviar d ++ ((rest.map enviar).flatten ++ r) := by
      simp
    rw [e, drain_frame d (h d (List.mem_cons_self d rest)) _,
        ih (fun x hx => h x (List.mem_cons_of_mem d hx))]
    simp

theorem raw_recv_many_eq (cs : List (List Nat)) (buf : List Nat) (h : END ∉ buf) :
    raw_recv_many buf cs = raw_recv buf cs.flatten := by
  induction cs generalizing buf with
  | nil =>
    show ([], buf) = drain (buf ++ [].flatten)
    rw [List.flatten_nil, List.append_nil, drain_of_not_mem buf h]
  | cons c rest ih =>
    show (((raw_recv buf c).1 ++ (raw_recv_many (raw_recv buf c).2 rest).1,
          (raw_recv_many (raw_recv buf c).2 rest).2))
        = raw_recv buf (c :: rest).flatten
    rw [ih (raw_recv buf c).2 (drain_snd_not_mem (buf ++ c))]
    show ((drain (buf ++ c)).1 ++ (drain ((drain (buf ++ c)).2 ++ rest.flatten)).1,
          (drain ((drain (buf ++ c)).2 ++ rest.flatten)).2)
        = drain (buf ++ (c :: rest).flatten)
    rw [List.flatten_cons, ← List.append_assoc, drain_append (buf ++ c) rest.flatten]

theorem drain_replicate_end (n : Nat) : drain (List.replicate n END) = ([], []) := by
  induction n with
  | zero => rfl
  | succ m ih => rw [List.replicate_succ, drain_cons_end, ih]

/-! ### The loop with explicit callback failures -/

theorem drainExFuel_spec (fails : List Nat → Bool) :
    ∀ (fuel : Nat) (b : List Nat),
      (drainExFuel fails fuel b).1 = (drainFuel fuel b).1
      ∧ (drainExFuel fails fuel b).2.1 = (drainFuel fuel b).1.filter fails
      ∧ (drainExFuel fails fuel b).2.2 = (drainFuel fuel b).2 := by
  intro fuel
  induction fuel with
  | zero =>
    intro b
    exact ⟨rfl, rfl, rfl⟩
  | succ n ih =>
    intro b
    by_cases hmem : END ∈ b
    · obtain ⟨ih1, ih2, ih3⟩ := ih ((b.dropWhile (fun x => x != END)).tail)
      by_cases hq : b.takeWhile (fun x => x != END) = []
      · show (drainExFuel fails (n + 1) b).1 = _ ∧ _
        simp only [drainExFuel, drainFuel, if_pos hmem, if_pos hq]
        exact ⟨ih1, ih2, ih3⟩
      · simp only [drainExFuel, drainFuel, if_pos hmem, if_neg hq]
        refine ⟨by rw [ih1], ?_, by rw [ih3]⟩
        rw [List.filter_cons]
        by_cases hf : fails (unescape (b.takeWhile (fun x => x != END)))
        · rw [if_pos hf, if_pos (by rw [hf]), ih2]
        · rw [if_neg hf, if_neg (by rw [Bool.not_eq_true] at hf; rw [hf]; simp), ih2]
    · simp [drainExFuel, drainFuel, hmem]

/-! ### Positional structure of the escaped payload -/

theorem escape_esc_followed (d : List Nat) :
    ∀ i : Nat, (escape d)[i]? = some ESC →
      (escape d)[i + 1]? = some 0xDC ∨ (escape d)[i + 1]? = some 0xDD := by
  induction d with
  | nil =>
    intro i h
    rw [escape_nil] at h
    simp at h
  | cons b rest ih =>
    intro i h
    rw [escape_cons] at h ⊢
    by_cases hend : b = END
    · rw [if_pos hend] at h ⊢
      match i with
      | 0 => exact Or.inl (by simp)
      | 1 =>
        exfalso
        simp only [List.cons_append, List.getElem?_cons_succ, List.getElem?_cons_zero] at h
        exact absurd (Option.some.inj h) (by decide)
      | n + 2 =>
        simp only [List.cons_append, List.getElem?_cons_succ] at h ⊢
        exact ih n h
    · rw [if_neg hend] at h ⊢
      by_cases hesc : b = ESC
      · rw [if_pos hesc] at h ⊢
        match i with
        | 0 => exact Or.inr (by simp)
        | 1 =>
          exfalso
          simp only [List.cons_append, List.getElem?_cons_succ, List.getElem?_cons_zero] at h
          exact absurd (Option.some.inj h) (by decide)
        | n + 2 =>
          simp only [List.cons_append, List.getElem?_cons_succ] at h ⊢
          exact ih n h
      · rw [if_neg hesc] at h ⊢
        match i with
        | 0 =>
          exfalso
          simp only [List.cons_append, List.getElem?_cons_zero] at h
          exact hesc (Option.some.inj h)
        | n + 1 =>
          simp only [List.cons_append, List.getElem?_cons_succ] at h ⊢
          exact ih n h

/-! ### Claim theorems -/

/-- C1 counterexample: the claim includes the empty byte sequence, but
feeding `Enlace.enviar b""` (the frame `C0 C0`) into `Enlace.__raw_recv`
yields zero callback invocations — the loop discards empty candidate
frames — not one invocation with the empty datagram. -/
theorem C1_empty_roundtrip_cex :
    raw_recv [] (enviar []) = ([], []) ∧ (raw_recv [] (enviar [])).1 ≠ [([] : List Nat)] := by
  decide

/-- C1 (amended): for every non-empty byte sequence `d` (including
sequences containing 0xC0 and 0xDB in any positions), feeding the exact
bytes produced by `Enlace.enviar d` into `Enlace.__raw_recv` (from an
empty buffer) yields exactly one receive-callback invocation, with a
datagram equal to `d`, and leaves the buffer empty; the empty datagram's
frame yields zero invocations. -/
theorem C1_roundtrip (d : List Nat) (h : d ≠ []) :
    raw_recv [] (enviar d) = ([d], []) := by
  show drain ([] ++ enviar d) = ([d], [])
  rw [List.nil_append]
  have e : enviar d = enviar d ++ [] := (List.append_nil _).symm
  rw [e, drain_frame d h []]
  rfl

theorem C1_roundtrip_witness :
    ([0x01, 0xC0, 0xDB] : List Nat) ≠ []
    ∧ raw_recv [] (enviar [0x01, 0xC0, 0xDB]) = ([[0x01, 0xC0, 0xDB]], []) :=
  ⟨by decide, C1_roundtrip [0x01, 0xC0, 0xDB] (by decide)⟩

/-- C2: fragmentation invariance — for bytes that are a concatenation of
encoded frames, delivering them split into arbitrary non-empty contiguous
pieces across several `Enlace.__raw_recv` calls produces the same
sequence of dispatched datagrams (and the same final buffer) as
delivering all the bytes in a single call. -/
theorem C2_fragmentation (ds pieces : List (List Nat))
    (hne : ∀ p ∈ pieces, p ≠ [])
    (hsplit : pieces.flatten = (ds.map enviar).flatten) :
    raw_recv_many [] pieces = raw_recv [] ((ds.map enviar).flatten) := by
  rw [← hsplit]
  exact raw_recv_many_eq pieces [] (by simp)

theorem C2_fragmentation_witness :
    (∀ p ∈ ([[0xC0], [0x41, 0xC0]] : List (List Nat)), p ≠ [])
    ∧ ([[0xC0], [0x41, 0xC0]] : List (List Nat)).flatten = (([[0x41]] : List (List Nat)).map enviar).flatten
    ∧ raw_recv_many [] [[0xC0], [0x41, 0xC0]] = raw_recv [] ((([[0x41]] : List (List Nat)).map enviar).flatten) :=
  ⟨by decide, by decide, C2_fragmentation [[0x41]] [[0xC0], [0x41, 0xC0]] (by decide) (by decide)⟩

/-- C3: coalescing — delivering the concatenation of the encoded frames
of two or more non-empty datagrams in a single `Enlace.__raw_recv` call
dispatches exactly one callback per frame, with the decoded datagrams in
frame order. -/
theorem C3_coalescing (ds : List (List Nat)) (h2 : 2 ≤ ds.length)
    (hne : ∀ d ∈ ds, d ≠ []) :
    raw_recv [] ((ds.map enviar).flatten) = (ds, []) := by
  show drain ([] ++ (ds.map enviar).flatten) = (ds, [])
  rw [List.nil_append]
  have e : (ds.map enviar).flatten = (ds.map enviar).flatten ++ [] := (List.append_nil _).symm
  rw [e, drain_frames ds hne []]
  simp [drain, drainFuel_zero]

theorem C3_coalescing_witness :
    2 ≤ ([[0x41], [0x42]] : List (List Nat)).length
    ∧ (∀ d ∈ ([[0x41], [0x42]] : List (List Nat)), d ≠ [])
    ∧ raw_recv [] ((([[0x41], [0x42]] : List (List Nat)).map enviar).flatten) = ([[0x41], [0x42]], []) :=
  ⟨by decide, by decide, C3_coalescing [[0x41], [0x42]] (by decide) (by decide)⟩

/-- C4: concrete scenario — `Enlace.enviar` on the datagram `C0 DB`
passes exactly the six bytes `C0 DB DC DB DD C0` to the serial line, and
`Enlace.__raw_recv` on exactly those six bytes (empty buffer) dispatches
exactly one callback with datagram `C0 DB`. -/
theorem C4_concrete :
    enviar [0xC0, 0xDB] = [0xC0, 0xDB, 0xDC, 0xDB, 0xDD, 0xC0]
    ∧ raw_recv [] [0xC0, 0xDB, 0xDC, 0xDB, 0xDD, 0xC0] = ([[0xC0, 0xDB]], []) := by
  decide

/-- C5: routing — `CamadaEnlace.enviar d addr` transmits the encoded
frame on the Link registered for `addr` and on no other Link; when
`addr` is absent from the registry the call fails with the
address-unknown error and performs no transmission. -/
theorem C5_routing (enlaces : List (Nat × Nat)) (d : List Nat) (addr : Nat) :
    (∀ lk, enlaces.lookup addr = some lk →
        camadaEnviar enlaces d addr = Except.ok [(lk, enviar d)])
    ∧ (enlaces.lookup addr = none →
        camadaEnviar enlaces d addr = Except.error SendError.addressUnknown) := by
  constructor
  · intro lk hlk
    simp [camadaEnviar, hlk]
  · intro hnone
    simp [camadaEnviar, hnone]

theorem C5_routing_witness :
    camadaEnviar [(1, 7)] [0x41] 1 = Except.ok [(7, enviar [0x41])]
    ∧ camadaEnviar [(1, 7)] [0x41] 2 = Except.error SendError.addressUnknown :=
  ⟨(C5_routing [(1, 7)] [0x41] 1).1 7 (by decide),
   (C5_routing [(1, 7)] [0x41] 2).2 (by decide)⟩

/-- C6: callback-failure containment — whatever set of datagrams makes
the receive callback raise (`fails`), `Enlace.__raw_recv` dispatches
exactly the same datagrams in the same order as with a never-failing
callback, reports exactly the failing dispatches (they are caught and
printed, not re-raised), computes the same final buffer, and preserves
the buffer invariant; the embedding is a total function, so no exception
propagates to the transport. -/
theorem C6_callback_containment (fails : List Nat → Bool) (buffer dados : List Nat) :
    (raw_recvEx fails buffer dados).1 = (raw_recv buffer dados).1
    ∧ (raw_recvEx fails buffer dados).2.1 = (raw_recv buffer dados).1.filter fails
    ∧ (raw_recvEx fails buffer dados).2.2 = (raw_recv buffer dados).2
    ∧ END ∉ (raw_recvEx fails buffer dados).2.2 := by
  obtain ⟨h1, h2, h3⟩ := drainExFuel_spec fails (buffer ++ dados).length (buffer ++ dados)
  refine ⟨h1, h2, h3, ?_⟩
  show END ∉ (drainExFuel fails (buffer ++ dados).length (buffer ++ dados)).2.2
  rw [h3]
  exact drain_snd_not_mem (buffer ++ dados)

/-- C7: reassembly-buffer invariant — after every `Enlace.__raw_recv`
call the buffer contains no delimiter byte 0xC0, and it is exactly the
(possibly empty) suffix of the accumulated bytes after the last
delimiter: the bytes of an unterminated frame are retained, never
discarded. -/
theorem C7_buffer_invariant (buffer dados : List Nat) :
    END ∉ (raw_recv buffer dados).2
    ∧ (raw_recv buffer dados).2 = ((buffer ++ dados).reverse.takeWhile (fun x => x != END)).reverse :=
  ⟨drain_snd_not_mem (buffer ++ dados), drain_snd_eq (buffer ++ dados)⟩

/-- C8: idempotent emptiness — a chunk consisting solely of n ≥ 1
delimiter bytes 0xC0, delivered to `Enlace.__raw_recv` from an empty
buffer, yields zero callback invocations and leaves the buffer empty. -/
theorem C8_only_delimiters (n : Nat) (h : 1 ≤ n) :
    raw_recv [] (List.replicate n END) = ([], []) := by
  show drain ([] ++ List.replicate n END) = ([], [])
  rw [List.nil_append]
  exact drain_replicate_end n

theorem C8_only_delimiters_witness :
    1 ≤ 3 ∧ raw_recv [] (List.replicate 3 END) = ([], []) :=
  ⟨by decide, C8_only_delimiters 3 (by decide)⟩

/-- C9: unregistered-receiver drop — while `CamadaEnlace`'s callback
slot is `None`, `_callback` delivers nothing, and a datagram arriving in
that state is dropped outright: the remaining event trace (including any
later `registrar_recebedor`) produces exactly the deliveries it would
have produced had the datagram never arrived. -/
theorem C9_unregistered_drop (d : List Nat) (es : List Ev) :
    dispatchUp none d = []
    ∧ runEvents none (Ev.arrive d :: es) = runEvents none es :=
  ⟨rfl, rfl⟩

/-- C10: implicit encode invariant — the escaped payload computed by
`Enlace.enviar` contains no 0xC0 byte, so the transmitted frame contains
exactly two 0xC0 bytes, its first and its last byte, and every 0xDB in
the frame's interior is immediately followed by 0xDC or 0xDD. -/
theorem C10_encode_invariant (d : List Nat) :
    END ∉ escape d
    ∧ (enviar d).count END = 2
    ∧ (enviar d).head? = some END
    ∧ (enviar d).getLast? = some END
    ∧ ∀ i : Nat, (escape d)[i]? = some ESC →
        (escape d)[i + 1]? = some 0xDC ∨ (escape d)[i + 1]? = some 0xDD := by
  refine ⟨end_not_mem_escape d, ?_, rfl, ?_, escape_esc_followed d⟩
  · have h0 : (escape d).count END = 0 := List.count_eq_zero.mpr (end_not_mem_escape d)
    simp [enviar, List.count_cons, List.count_append, h0]
  · show ((END :: escape d) ++ [END]).getLast? = some END
    exact List.getLast?_concat _

theorem C10_encode_invariant_witness :
    (escape [0xDB])[0]? = some ESC
    ∧ ((escape [0xDB])[0 + 1]? = some 0xDC ∨ (escape [0xDB])[0 + 1]? = some 0xDD) :=
  ⟨by decide, (C10_encode_invariant [0xDB]).2.2.2.2 0 (by decide)⟩

end SLIP
